import Mathlib

/-!
A shallow embedding of `verify_mcp_references.py`, a static verification
utility that checks a fixed manifest of five deployment files for the
presence of expected regular-expression patterns and prints one report
line per result key.

The embedding models:

* the fragment of Python's `re` syntax exercised by the program
  (literal characters, the `.` wildcard, the postfix `*` repetition and
  parenthesised groups), as an abstract syntax `RE` together with a
  parser `compile`; an ill-formed pattern (an unmatched parenthesis, a
  repeat with nothing to repeat) makes `compile` return `none`, which
  models the `re.error` exception raised by `re.search`;
* Python's unanchored `re.search` truthiness as `searchRE`, a
  Brzozowski-derivative matcher run at every suffix of the content; as
  in Python's default (no `re.DOTALL`) mode, `RE.dot` matches every
  character except the newline;
* Python dicts (insertion-ordered, key-overwrite-keeps-position) as
  association lists with `dictInsert` / `dictUpdate` / `dlookup`;
* the filesystem as `FS := String → Option String`, keyed by the path
  relative to the script directory (`base_dir / file` in the source);
  `none` means the resolved path does not exist, `some content` means
  the file exists and its bytes decode as text (decoding failures are
  outside this model, matching the spec's premise that contents decode);
* exceptions escaping to the caller as the `Except ReError` monad;
* the process exit status: 0 when the script runs to completion,
  nonzero when an unhandled exception escapes.
-/

/-- The error raised by the regex engine when a pattern string is not
valid regular-expression syntax (Python's `re.error`). -/
inductive ReError : Type where
  | invalidPattern (p : String) : ReError
deriving DecidableEq, Repr

/-- Abstract syntax for the regex fragment used by the program:
`void` matches nothing, `eps` the empty string, `lit c` the single
character `c`, `dot` any single character except newline, `alt`/`seq`
alternation and concatenation, `star` Kleene repetition. -/
inductive RE : Type where
  | void : RE
  | eps : RE
  | lit (c : Char) : RE
  | dot : RE
  | alt (r1 r2 : RE) : RE
  | seq (r1 r2 : RE) : RE
  | star (r : RE) : RE
deriving DecidableEq, Repr

/-- The language of a regex: `Lang r s` holds when `r` matches exactly
the character list `s`. `dot` matches any single character other than
the newline, as in Python's default (non-DOTALL) mode. -/
inductive Lang : RE → List Char → Prop where
  | eps : Lang .eps []
  | lit (c : Char) : Lang (.lit c) [c]
  | dot (c : Char) : c ≠ '\n' → Lang .dot [c]
  | altL {r1 r2 : RE} {s : List Char} : Lang r1 s → Lang (.alt r1 r2) s
  | altR {r1 r2 : RE} {s : List Char} : Lang r2 s → Lang (.alt r1 r2) s
  | seq {r1 r2 : RE} {s1 s2 : List Char} :
      Lang r1 s1 → Lang r2 s2 → Lang (.seq r1 r2) (s1 ++ s2)
  | starNil {r : RE} : Lang (.star r) []
  | starCons {r : RE} {s1 s2 : List Char} :
      Lang r s1 → Lang (.star r) s2 → Lang (.star r) (s1 ++ s2)

/-- Whether a regex matches the empty string. -/
def RE.nullable : RE → Bool
  | .void => false
  | .eps => true
  | .lit _ => false
  | .dot => false
  | .alt r1 r2 => r1.nullable || r2.nullable
  | .seq r1 r2 => r1.nullable && r2.nullable
  | .star _ => true

/-- Smart alternation constructor (simplifies `void` away so that
iterated derivatives stay small; language-equivalent to `RE.alt`). -/
def RE.malt : RE → RE → RE
  | .void, r2 => r2
  | r1, .void => r1
  | r1, r2 => .alt r1 r2

/-- Smart concatenation constructor (simplifies `void` and `eps` away;
language-equivalent to `RE.seq`). -/
def RE.mseq : RE → RE → RE
  | .void, _ => .void
  | _, .void => .void
  | .eps, r2 => r2
  | r1, .eps => r1
  | r1, r2 => .seq r1 r2

/-- Brzozowski derivative: `r.deriv c` matches `s` exactly when `r`
matches `c :: s`. -/
def RE.deriv : RE → Char → RE
  | .void, _ => .void
  | .eps, _ => .void
  | .lit c, a => if a = c then .eps else .void
  | .dot, a => if a = '\n' then .void else .eps
  | .alt r1 r2, a => .malt (r1.deriv a) (r2.deriv a)
  | .seq r1 r2, a =>
      if r1.nullable then .malt (.mseq (r1.deriv a) r2) (r2.deriv a)
      else .mseq (r1.deriv a) r2
  | .star r, a => .mseq (r.deriv a) (.star r)

/-- Whether `r` matches some prefix of `s` (including the empty
prefix), computed by iterated derivatives. -/
def RE.matchesFrom : RE → List Char → Bool
  | r, [] => r.nullable
  | r, c :: cs => r.nullable || (r.deriv c).matchesFrom cs

/-- Unanchored search: whether `r` matches some substring of `s`
(truthiness of Python's `re.search`). -/
def searchRE (r : RE) : List Char → Bool
  | [] => r.matchesFrom []
  | c :: cs => r.matchesFrom (c :: cs) || searchRE r cs

/-- Parser for the regex fragment: a sequence of atoms, where an atom
is a parenthesised group, `.`, or a literal character, optionally
followed by `*`. Consumes input until the end or an unconsumed `)`;
returns the parsed regex and the rest. `none` models Python's
`re.error`: a repeat with nothing before it (`nothing to repeat`,
`multiple repeat`) or an unterminated group. `fuel` bounds recursion
depth and is chosen large enough by `compile`. -/
def parseSeq : Nat → List Char → RE → Option (RE × List Char)
  | 0, _, _ => none
  | _ + 1, [], acc => some (acc, [])
  | _ + 1, ')' :: cs, acc => some (acc, ')' :: cs)
  | _ + 1, '*' :: _, _ => none
  | fuel + 1, '(' :: cs, acc =>
      match parseSeq fuel cs .eps with
      | none => none
      | some (r, rest) =>
        match rest with
        | ')' :: '*' :: rest' => parseSeq fuel rest' (.seq acc (.star r))
        | ')' :: rest' => parseSeq fuel rest' (.seq acc r)
        | _ => none
  | fuel + 1, '.' :: '*' :: cs, acc => parseSeq fuel cs (.seq acc (.star .dot))
  | fuel + 1, '.' :: cs, acc => parseSeq fuel cs (.seq acc .dot)
  | fuel + 1, c :: '*' :: cs, acc => parseSeq fuel cs (.seq acc (.star (.lit c)))
  | fuel + 1, c :: cs, acc => parseSeq fuel cs (.seq acc (.lit c))

/-- Compile a pattern string to a regex; `none` models the `re.error`
exception for invalid pattern syntax (e.g. the lone `(`, which leaves
input unconsumed at an unmatched parenthesis). -/
def compile (p : String) : Option RE :=
  match parseSeq (2 * p.length + 2) p.data .eps with
  | some (r, []) => some r
  | _ => none

/-- The filesystem seen by the script: a map from the path relative to
the script's directory to the decoded text content of that file, or
`none` when the resolved path does not exist. -/
def FS : Type := String → Option String

/-- An insertion-ordered string-keyed dictionary, as Python dicts
behave for this program: a list of key-value pairs with unique keys. -/
def Dict : Type := List (String × String)

/-- Whether the dictionary has the key. -/
def hasKey : List (String × String) → String → Bool
  | [], _ => false
  | kv :: rest, k => if kv.1 = k then true else hasKey rest k

/-- Python dict item assignment `d[k] = v`: an existing key keeps its
position and gets the new value, a new key is appended at the end. -/
def dictInsert (d : List (String × String)) (k v : String) : List (String × String) :=
  if hasKey d k then d.map (fun kv => if kv.1 = k then (k, v) else kv)
  else d ++ [(k, v)]

/-- Python's `d.update(e)`: assign every pair of `e` into `d` in
`e`'s order (key-insertion-or-overwrite merge). -/
def dictUpdate (d e : List (String × String)) : List (String × String) :=
  e.foldl (fun acc kv => dictInsert acc kv.1 kv.2) d

/-- Lookup in the dictionary. -/
def dlookup : List (String × String) → String → Option String
  | [], _ => none
  | kv :: rest, k => if kv.1 = k then some kv.2 else dlookup rest k

/-- The keys of a dictionary, in insertion order. -/
def dkeys (d : List (String × String)) : List String := d.map Prod.fst

/-- The dict comprehension
`{pattern: "✅" if re.search(pattern, content) else "❌" for pattern in patterns}`:
patterns are compiled and searched left to right, building the dict by
insertion; an invalid pattern raises (error), discarding the dict. -/
def checkLoop (content : String) : List String → List (String × String) →
    Except ReError (List (String × String))
  | [], acc => .ok acc
  | p :: ps, acc =>
      match compile p with
      | none => .error (.invalidPattern p)
      | some r =>
          checkLoop content ps
            (dictInsert acc p (if searchRE r content.data then "✅" else "❌"))

/-- The `check(file, patterns)` function of the script: if the resolved
path does not exist, return the single-entry dict
`{file: "❌ FILE MISSING"}` keyed by the original relative path; else
read the content and map each pattern to "✅"/"❌" by unanchored
regex search. -/
def check (fs : FS) (file : String) (patterns : List String) :
    Except ReError (List (String × String)) :=
  match fs file with
  | none => .ok [(file, "❌ FILE MISSING")]
  | some content => checkLoop content patterns []

/-- The fixed manifest: the five `results.update(check(...))` calls of
the script, in program order. -/
def manifest : List (String × List String) :=
  [ ("docker-compose.yml",
      ["volumes:.*mcp_config.db", "command:.*dev", "certbot/certbot", "9229"]),
    ("nginx.conf",
      ["listen 443 ssl", "certbot", "proxy_pass http://app:3000"]),
    (".env.example",
      ["NODE_ENV", "PORT", "MCP_DB_PATH", "DEBUG_MODE"]),
    ("src/lib/mcp/config.ts",
      ["sqlite3", "MCP_COOKIE_KEY"]),
    ("src/app/api/mcp/config/route.ts",
      ["session_id", "INSERT OR REPLACE"]) ]

/-- Run the manifest entries in order, merging each `check` result into
the accumulating dict with `results.update(...)`; an exception from any
`check` aborts the whole run. -/
def runEntries (fs : FS) : List (String × List String) → List (String × String) →
    Except ReError (List (String × String))
  | [], acc => .ok acc
  | (file, pats) :: rest, acc =>
      match check fs file pats with
      | .error e => .error e
      | .ok d => runEntries fs rest (dictUpdate acc d)

/-- The final `results` dict of the script. -/
def results (fs : FS) : Except ReError (List (String × String)) :=
  runEntries fs manifest []

/-- The printed output: one line `f"{k}: {v}"` per entry of `results`,
in insertion order. -/
def outputLines (fs : FS) : Except ReError (List String) :=
  (results fs).map (List.map (fun kv => kv.1 ++ ": " ++ kv.2))

/-- The process exit status: 0 when the script runs to completion,
1 when an unhandled exception escapes (Python aborts nonzero). -/
def exitCode (fs : FS) : Nat :=
  match outputLines fs with
  | .ok _ => 0
  | .error _ => 1

/-- `searchRE` holding as a proposition: the pattern matches somewhere
inside the content (the truthiness of Python's unanchored
`re.search`). -/
def FindsMatch (r : RE) (s : List Char) : Prop :=
  ∃ pre mid post, s = pre ++ mid ++ post ∧ Lang r mid

/-- The status glyph `check` records for a pattern against a content:
"✅" when the unanchored search succeeds, "❌" otherwise (the value for
an uncompilable pattern is irrelevant: `check` raises instead). -/
def pstatus (p content : String) : String :=
  match compile p with
  | some r => if searchRE r content.data then "✅" else "❌"
  | none => "❌"

/-- Whether the regex contains no literal newline character. Since
`dot` also excludes the newline, such a regex can only match
newline-free strings, so a match never spans two lines. Every manifest
pattern, and every pattern of the form `A.*B` whose `A` and `B` are
newline-free, satisfies this. -/
def RE.newlineFree : RE → Bool
  | .void => true
  | .eps => true
  | .lit c => if c = '\n' then false else true
  | .dot => true
  | .alt r1 r2 => r1.newlineFree && r2.newlineFree
  | .seq r1 r2 => r1.newlineFree && r2.newlineFree
  | .star r => r.newlineFree

/-- The dictionary one manifest entry contributes to the report: the
single missing-file pair when the file does not exist, else one pair
per pattern in declared order (what `check` returns when every pattern
compiles). -/
def entryResult (fs : FS) (file : String) (ps : List String) : List (String × String) :=
  match fs file with
  | none => [(file, "❌ FILE MISSING")]
  | some c => ps.map fun p => (p, pstatus p c)

lemma lang_void_inv {s : List Char} (h : Lang .void s) : False := by
  cases h

lemma lang_eps_inv {s : List Char} (h : Lang .eps s) : s = [] := by
  cases h; rfl

lemma lang_lit_inv {c : Char} {s : List Char} (h : Lang (.lit c) s) : s = [c] := by
  cases h; rfl

lemma lang_dot_inv {s : List Char} (h : Lang .dot s) : ∃ c, s = [c] ∧ c ≠ '\n' := by
  cases h with
  | dot c hc => exact ⟨c, rfl, hc⟩

lemma lang_alt_inv {r1 r2 : RE} {s : List Char} (h : Lang (.alt r1 r2) s) :
    Lang r1 s ∨ Lang r2 s := by
  cases h with
  | altL h1 => exact Or.inl h1
  | altR h2 => exact Or.inr h2

lemma lang_seq_inv {r1 r2 : RE} {s : List Char} (h : Lang (.seq r1 r2) s) :
    ∃ s1 s2, s = s1 ++ s2 ∧ Lang r1 s1 ∧ Lang r2 s2 := by
  cases h with
  | seq h1 h2 => exact ⟨_, _, rfl, h1, h2⟩

lemma lang_star_inv_aux {q : RE} {s : List Char} (h : Lang q s) :
    ∀ r : RE, q = .star r →
      s = [] ∨ ∃ s1 s2, s = s1 ++ s2 ∧ s1 ≠ [] ∧ Lang r s1 ∧ Lang (.star r) s2 := by
  induction h with
  | eps => intro r hq; simp at hq
  | lit c => intro r hq; simp at hq
  | dot c hc => intro r hq; simp at hq
  | altL h1 ih => intro r hq; simp at hq
  | altR h2 ih => intro r hq; simp at hq
  | seq h1 h2 ih1 ih2 => intro r hq; simp at hq
  | starNil => intro r hq; exact Or.inl rfl
  | starCons h1 h2 ih1 ih2 =>
      rename_i r0 s1 s2
      intro r hq
      injection hq with hr
      subst hr
      by_cases hs : s1 = []
      · subst hs
        simpa using ih2 _ rfl
      · exact Or.inr ⟨s1, s2, rfl, hs, h1, h2⟩

lemma lang_star_inv {r : RE} {s : List Char} (h : Lang (.star r) s) :
    s = [] ∨ ∃ s1 s2, s = s1 ++ s2 ∧ s1 ≠ [] ∧ Lang r s1 ∧ Lang (.star r) s2 :=
  lang_star_inv_aux h r rfl

lemma nullable_iff (r : RE) : r.nullable = true ↔ Lang r [] := by
  induction r with
  | void => simp [RE.nullable]; intro h; exact lang_void_inv h
  | eps => simp [RE.nullable]; exact Lang.eps
  | lit c => simp [RE.nullable]; intro h; simpa using lang_lit_inv h
  | dot =>
      simp [RE.nullable]; intro h
      rcases lang_dot_inv h with ⟨c, hc, _⟩
      simp at hc
  | alt r1 r2 ih1 ih2 =>
      simp [RE.nullable, ih1, ih2]
      constructor
      · rintro (h | h)
        · exact Lang.altL h
        · exact Lang.altR h
      · intro h; exact lang_alt_inv h
  | seq r1 r2 ih1 ih2 =>
      simp [RE.nullable, ih1, ih2]
      constructor
      · rintro ⟨h1, h2⟩
        exact Lang.seq h1 h2
      · intro h
        rcases lang_seq_inv h with ⟨s1, s2, hs, h1, h2⟩
        rcases List.append_eq_nil.mp hs.symm with ⟨e1, e2⟩
        subst e1; subst e2
        exact ⟨h1, h2⟩
  | star r ih =>
      simp [RE.nullable]
      exact Lang.starNil

lemma lang_malt {r1 r2 : RE} {s : List Char} :
    Lang (RE.malt r1 r2) s ↔ Lang (.alt r1 r2) s := by
  constructor
  · intro h
    unfold RE.malt at h
    split at h
    · exact Lang.altR h
    · exact Lang.altL h
    · exact h
  · intro h
    rcases lang_alt_inv h with h1 | h2
    · unfold RE.malt
      split
      · exact absurd h1 lang_void_inv
      · exact h1
      · exact Lang.altL h1
    · unfold RE.malt
      split
      · exact h2
      · exact absurd h2 lang_void_inv
      · exact Lang.altR h2

lemma lang_mseq {r1 r2 : RE} {s : List Char} :
    Lang (RE.mseq r1 r2) s ↔ Lang (.seq r1 r2) s := by
  constructor
  · intro h
    unfold RE.mseq at h
    split at h
    · exact absurd h lang_void_inv
    · exact absurd h lang_void_inv
    · exact (List.nil_append s) ▸ Lang.seq Lang.eps h
    · exact (List.append_nil s) ▸ Lang.seq h Lang.eps
    · exact h
  · intro h
    rcases lang_seq_inv h with ⟨s1, s2, hs, h1, h2⟩
    subst hs
    unfold RE.mseq
    split
    · exact absurd h1 lang_void_inv
    · exact absurd h2 lang_void_inv
    · rwa [lang_eps_inv h1, List.nil_append]
    · rwa [lang_eps_inv h2, List.append_nil]
    · exact Lang.seq h1 h2

lemma deriv_iff (r : RE) (c : Char) (s : List Char) :
    Lang (r.deriv c) s ↔ Lang r (c :: s) := by
  induction r generalizing s with
  | void =>
      simp only [RE.deriv]
      exact ⟨fun h => absurd h lang_void_inv, fun h => absurd h lang_void_inv⟩
  | eps =>
      simp only [RE.deriv]
      exact ⟨fun h => absurd h lang_void_inv, fun h => by simpa using lang_eps_inv h⟩
  | lit b =>
      simp only [RE.deriv]
      split
      · constructor
        · intro h
          rw [lang_eps_inv h]
          subst_vars
          exact Lang.lit b
        · intro h
          have := lang_lit_inv h
          simp at this
          rw [this.2]
          exact Lang.eps
      · constructor
        · intro h; exact absurd h lang_void_inv
        · intro h
          have := lang_lit_inv h
          simp at this
          exact absurd this.1 (by assumption)
  | dot =>
      simp only [RE.deriv]
      split
      · constructor
        · intro h; exact absurd h lang_void_inv
        · intro h
          rcases lang_dot_inv h with ⟨b, hb, hbn⟩
          simp at hb
          subst_vars
          exact absurd hb.1.symm hbn
      · constructor
        · intro h
          rw [lang_eps_inv h]
          exact Lang.dot c (by assumption)
        · intro h
          rcases lang_dot_inv h with ⟨b, hb, _⟩
          simp at hb
          rw [hb.2]
          exact Lang.eps
  | alt r1 r2 ih1 ih2 =>
      simp only [RE.deriv]
      rw [lang_malt]
      constructor
      · intro h
        rcases lang_alt_inv h with h1 | h2
        · exact Lang.altL ((ih1 s).mp h1)
        · exact Lang.altR ((ih2 s).mp h2)
      · intro h
        rcases lang_alt_inv h with h1 | h2
        · exact Lang.altL ((ih1 s).mpr h1)
        · exact Lang.altR ((ih2 s).mpr h2)
  | seq r1 r2 ih1 ih2 =>
      simp only [RE.deriv]
      split
      · rw [lang_malt]
        constructor
        · intro h
          rcases lang_alt_inv h with h1 | h2
          · rcases lang_seq_inv (lang_mseq.mp h1) with ⟨s1, s2, hs, hd, hr2⟩
            subst hs
            exact Lang.seq ((ih1 s1).mp hd) hr2
          · have hnil : Lang r1 [] := (nullable_iff r1).mp (by assumption)
            exact Lang.seq hnil ((ih2 s).mp h2)
        · intro h
          rcases lang_seq_inv h with ⟨s1, s2, hs, h1, h2⟩
          cases s1 with
          | nil =>
              simp at hs
              subst hs
              exact Lang.altR ((ih2 s).mpr h2)
          | cons c1 s1' =>
              rw [List.cons_append] at hs
              injection hs with hc hs'
              subst hc; subst hs'
              exact Lang.altL (lang_mseq.mpr (Lang.seq ((ih1 s1').mpr h1) h2))
      · rw [lang_mseq]
        constructor
        · intro h
          rcases lang_seq_inv h with ⟨s1, s2, hs, hd, hr2⟩
          subst hs
          exact Lang.seq ((ih1 s1).mp hd) hr2
        · intro h
          rcases lang_seq_inv h with ⟨s1, s2, hs, h1, h2⟩
          cases s1 with
          | nil =>
              exact absurd ((nullable_iff r1).mpr h1) (by simp_all)
          | cons c1 s1' =>
              rw [List.cons_append] at hs
              injection hs with hc hs'
              subst hc; subst hs'
              exact Lang.seq ((ih1 s1').mpr h1) h2
  | star r ih =>
      simp only [RE.deriv]
      rw [lang_mseq]
      constructor
      · intro h
        rcases lang_seq_inv h with ⟨s1, s2, hs, hd, hst⟩
        subst hs
        exact Lang.starCons ((ih s1).mp hd) hst
      · intro h
        rcases lang_star_inv h with hnil | ⟨s1, s2, hs, hne, h1, h2⟩
        · simp at hnil
        · cases s1 with
          | nil => exact absurd rfl hne
          | cons c1 s1' =>
              rw [List.cons_append] at hs
              injection hs with hc hs'
              subst hc; subst hs'
              exact Lang.seq ((ih s1').mpr h1) h2

lemma matchesFrom_iff (r : RE) (s : List Char) :
    r.matchesFrom s = true ↔ ∃ s1 s2, s = s1 ++ s2 ∧ Lang r s1 := by
  induction s generalizing r with
  | nil =>
      simp only [RE.matchesFrom]
      rw [nullable_iff]
      constructor
      · intro h; exact ⟨[], [], rfl, h⟩
      · rintro ⟨s1, s2, hs, h1⟩
        rcases List.append_eq_nil.mp hs.symm with ⟨e1, _⟩
        subst e1
        exact h1
  | cons c cs ih =>
      simp only [RE.matchesFrom, Bool.or_eq_true]
      rw [nullable_iff, ih]
      constructor
      · rintro (h | ⟨s1, s2, hs, h1⟩)
        · exact ⟨[], c :: cs, rfl, h⟩
        · subst hs
          exact ⟨c :: s1, s2, rfl, (deriv_iff r c s1).mp h1⟩
      · rintro ⟨s1, s2, hs, h1⟩
        cases s1 with
        | nil =>
            simp at hs
            exact Or.inl h1
        | cons c1 s1' =>
            rw [List.cons_append] at hs
            injection hs with hc hs'
            subst hc; subst hs'
            exact Or.inr ⟨s1', s2, rfl, (deriv_iff r c s1').mpr h1⟩

/-- Correctness of the unanchored search: `searchRE r s` succeeds
exactly when `r` matches some substring of `s`, i.e. when the search
finds a match anywhere in the content. -/
theorem searchRE_iff (r : RE) (s : List Char) :
    searchRE r s = true ↔ FindsMatch r s := by
  induction s with
  | nil =>
      simp only [searchRE, FindsMatch]
      rw [matchesFrom_iff]
      constructor
      · rintro ⟨s1, s2, hs, h1⟩
        exact ⟨[], s1, s2, hs, h1⟩
      · rintro ⟨pre, mid, post, hs, h1⟩
        rcases List.append_eq_nil.mp hs.symm with ⟨e1, e2⟩
        rcases List.append_eq_nil.mp e1 with ⟨e3, e4⟩
        subst e4
        exact ⟨[], [], rfl, h1⟩
  | cons c cs ih =>
      simp only [searchRE, Bool.or_eq_true]
      rw [matchesFrom_iff, ih]
      constructor
      · rintro (⟨s1, s2, hs, h1⟩ | ⟨pre, mid, post, hs, h1⟩)
        · exact ⟨[], s1, s2, by simpa using hs, h1⟩
        · subst hs
          exact ⟨c :: pre, mid, post, rfl, h1⟩
      · rintro ⟨pre, mid, post, hs, h1⟩
        cases pre with
        | nil =>
            simp only [List.nil_append] at hs
            exact Or.inl ⟨mid, post, hs, h1⟩
        | cons c1 pre' =>
            rw [List.cons_append] at hs
            injection hs with hc hs'
            subst hc; subst hs'
            exact Or.inr ⟨pre', mid, post, rfl, h1⟩

lemma hasKey_iff (d : List (String × String)) (k : String) :
    hasKey d k = true ↔ k ∈ dkeys d := by
  induction d with
  | nil => simp [hasKey, dkeys]
  | cons kv rest ih =>
      simp only [hasKey, dkeys, List.map, List.mem_cons]
      by_cases h1 : kv.1 = k
      · simp [h1]
      · simp only [if_neg h1, ih, dkeys]
        constructor
        · exact Or.inr
        · rintro (h | h)
          · exact absurd h.symm h1
          · exact h

lemma hasKey_append (d1 d2 : List (String × String)) (k : String) :
    hasKey (d1 ++ d2) k = (hasKey d1 k || hasKey d2 k) := by
  induction d1 with
  | nil => simp [hasKey]
  | cons kv rest ih =>
      simp only [List.cons_append, hasKey]
      by_cases h1 : kv.1 = k <;> simp [h1, ih]

lemma dkeys_append (d1 d2 : List (String × String)) :
    dkeys (d1 ++ d2) = dkeys d1 ++ dkeys d2 := by
  simp [dkeys]

lemma dkeys_map_pair (ps : List String) (f : String → String) :
    dkeys (ps.map fun p => (p, f p)) = ps := by
  induction ps with
  | nil => rfl
  | cons p ps ih =>
      simp only [List.map, dkeys] at ih ⊢
      rw [ih]

lemma dlookup_overwrite_self (d : List (String × String)) (k v : String)
    (hk : hasKey d k = true) :
    dlookup (d.map fun kv => if kv.1 = k then (k, v) else kv) k = some v := by
  induction d with
  | nil => simp [hasKey] at hk
  | cons kv0 rest ih =>
      simp only [hasKey] at hk
      simp only [List.map, dlookup]
      by_cases h1 : kv0.1 = k
      · simp [h1]
      · rw [if_neg h1] at hk
        rw [if_neg h1, if_neg h1]
        exact ih hk

lemma dlookup_overwrite_ne (d : List (String × String)) (k v k' : String)
    (hne : k' ≠ k) :
    dlookup (d.map fun kv => if kv.1 = k then (k, v) else kv) k' = dlookup d k' := by
  induction d with
  | nil => simp
  | cons kv0 rest ih =>
      simp only [List.map, dlookup]
      by_cases h1 : kv0.1 = k
      · rw [if_pos h1]
        rw [if_neg (Ne.symm hne), if_neg (by rw [h1]; exact Ne.symm hne)]
        exact ih
      · rw [if_neg h1]
        by_cases h2 : kv0.1 = k'
        · rw [if_pos h2, if_pos h2]
        · rw [if_neg h2, if_neg h2]
          exact ih

lemma dlookup_append_not_has (d e : List (String × String)) (k : String)
    (hk : hasKey d k = false) : dlookup (d ++ e) k = dlookup e k := by
  induction d with
  | nil => simp
  | cons kv0 rest ih =>
      simp only [hasKey] at hk
      simp only [List.cons_append, dlookup]
      by_cases h1 : kv0.1 = k
      · rw [if_pos h1] at hk
        exact absurd hk (by simp)
      · rw [if_neg h1] at hk
        rw [if_neg h1]
        exact ih hk

lemma dlookup_append_singleton_ne (d : List (String × String)) (k v k' : String)
    (hne : k' ≠ k) : dlookup (d ++ [(k, v)]) k' = dlookup d k' := by
  induction d with
  | nil => simp [dlookup, Ne.symm hne]
  | cons kv0 rest ih =>
      simp only [List.cons_append, dlookup]
      by_cases h2 : kv0.1 = k'
      · rw [if_pos h2, if_pos h2]
      · rw [if_neg h2, if_neg h2]
        exact ih

lemma dlookup_dictInsert_self (d : List (String × String)) (k v : String) :
    dlookup (dictInsert d k v) k = some v := by
  unfold dictInsert
  by_cases hk : hasKey d k = true
  · rw [if_pos hk]
    exact dlookup_overwrite_self d k v hk
  · rw [if_neg hk]
    rw [dlookup_append_not_has d [(k, v)] k (by simpa using hk)]
    simp [dlookup]

lemma dlookup_dictInsert_ne (d : List (String × String)) (k v k' : String)
    (hne : k' ≠ k) : dlookup (dictInsert d k v) k' = dlookup d k' := by
  unfold dictInsert
  by_cases hk : hasKey d k = true
  · rw [if_pos hk]
    exact dlookup_overwrite_ne d k v k' hne
  · rw [if_neg hk]
    exact dlookup_append_singleton_ne d k v k' hne

lemma mem_overwrite_self (d : List (String × String)) (k v : String)
    (hk : hasKey d k = true) :
    (k, v) ∈ d.map fun kv => if kv.1 = k then (k, v) else kv := by
  induction d with
  | nil => simp [hasKey] at hk
  | cons kv0 rest ih =>
      simp only [hasKey] at hk
      simp only [List.map, List.mem_cons]
      by_cases h1 : kv0.1 = k
      · rw [if_pos h1]
        exact Or.inl rfl
      · rw [if_neg h1] at hk
        rw [if_neg h1]
        exact Or.inr (ih hk)

lemma mem_dictInsert_self (d : List (String × String)) (k v : String) :
    (k, v) ∈ dictInsert d k v := by
  unfold dictInsert
  by_cases hk : hasKey d k = true
  · rw [if_pos hk]
    exact mem_overwrite_self d k v hk
  · rw [if_neg hk]
    simp

lemma mem_dictInsert_of_ne (d : List (String × String)) (k v k0 v0 : String)
    (hmem : (k0, v0) ∈ d) (hne : k0 ≠ k) : (k0, v0) ∈ dictInsert d k v := by
  unfold dictInsert
  by_cases hk : hasKey d k = true
  · rw [if_pos hk]
    have heq : (fun kv : String × String => if kv.1 = k then (k, v) else kv) (k0, v0) =
        (k0, v0) := by simp [hne]
    exact heq ▸ List.mem_map_of_mem _ hmem
  · rw [if_neg hk]
    exact List.mem_append_left _ hmem

lemma mem_dictInsert_elim (d : List (String × String)) (k v : String)
    (kv : String × String) (hmem : kv ∈ dictInsert d k v) :
    kv ∈ d ∨ kv = (k, v) := by
  unfold dictInsert at hmem
  by_cases hk : hasKey d k = true
  · rw [if_pos hk] at hmem
    rcases List.mem_map.mp hmem with ⟨kv0, hkv0, heq⟩
    by_cases h1 : kv0.1 = k
    · rw [if_pos h1] at heq
      exact Or.inr heq.symm
    · rw [if_neg h1] at heq
      exact Or.inl (heq ▸ hkv0)
  · rw [if_neg hk] at hmem
    rcases List.mem_append.mp hmem with h | h
    · exact Or.inl h
    · exact Or.inr (by simpa using h)

lemma dkeys_overwrite (d : List (String × String)) (k v : String) :
    dkeys (d.map fun kv => if kv.1 = k then (k, v) else kv) = dkeys d := by
  induction d with
  | nil => rfl
  | cons kv0 rest ih =>
      have hhead : ((if kv0.1 = k then (k, v) else kv0) : String × String).1 = kv0.1 := by
        by_cases h1 : kv0.1 = k
        · rw [if_pos h1, h1]
        · rw [if_neg h1]
      simp only [dkeys, List.map] at ih ⊢
      rw [hhead, ih]

lemma dkeys_dictInsert_nodup (d : List (String × String)) (k v : String)
    (hnd : (dkeys d).Nodup) : (dkeys (dictInsert d k v)).Nodup := by
  unfold dictInsert
  by_cases hk : hasKey d k = true
  · rw [if_pos hk, dkeys_overwrite]
    exact hnd
  · rw [if_neg hk, dkeys_append, List.nodup_append]
    refine ⟨hnd, List.nodup_singleton k, ?_⟩
    intro a ha hb
    simp only [dkeys, List.map, List.map_nil, List.mem_singleton] at hb
    subst hb
    exact hk ((hasKey_iff d a).mpr ha)

lemma dlookup_isSome_of_mem_keys (d : List (String × String)) (k : String)
    (hk : k ∈ dkeys d) : ∃ v, dlookup d k = some v := by
  induction d with
  | nil => simp [dkeys] at hk
  | cons kv rest ih =>
      simp only [dlookup]
      by_cases h1 : kv.1 = k
      · rw [if_pos h1]
        exact ⟨kv.2, rfl⟩
      · rw [if_neg h1]
        simp only [dkeys, List.map, List.mem_cons] at hk
        rcases hk with h | h
        · exact absurd h.symm h1
        · exact ih (by simpa [dkeys] using h)

lemma dictUpdate_nil (d : List (String × String)) : dictUpdate d [] = d := rfl

lemma dictUpdate_cons (d : List (String × String)) (kv : String × String)
    (e : List (String × String)) :
    dictUpdate d (kv :: e) = dictUpdate (dictInsert d kv.1 kv.2) e := rfl

lemma dlookup_dictUpdate_not_mem (e d : List (String × String)) (k : String)
    (hk : k ∉ dkeys e) : dlookup (dictUpdate d e) k = dlookup d k := by
  induction e generalizing d with
  | nil => rfl
  | cons kv e ih =>
      simp only [dkeys, List.map, List.mem_cons] at hk
      push_neg at hk
      rw [dictUpdate_cons, ih _ (by simpa [dkeys] using hk.2),
        dlookup_dictInsert_ne _ _ _ _ hk.1]

lemma dlookup_dictUpdate_mem (e d : List (String × String)) (k : String)
    (hnd : (dkeys e).Nodup) (hk : k ∈ dkeys e) :
    dlookup (dictUpdate d e) k = dlookup e k := by
  induction e generalizing d with
  | nil => simp [dkeys] at hk
  | cons kv e ih =>
      simp only [dkeys, List.map, List.mem_cons] at hk
      simp only [dkeys, List.map, List.nodup_cons] at hnd
      rw [dictUpdate_cons]
      by_cases h1 : k = kv.1
      · subst h1
        rw [dlookup_dictUpdate_not_mem _ _ _ (by simpa [dkeys] using hnd.1),
          dlookup_dictInsert_self]
        simp [dlookup]
      · rcases hk with h | h
        · exact absurd h h1
        · rw [ih _ (by simpa [dkeys] using hnd.2) (by simpa [dkeys] using h)]
          simp only [dlookup]
          rw [if_neg (fun hh => h1 hh.symm)]

lemma mem_dictUpdate_of_ne (d e : List (String × String)) (k0 v0 : String)
    (hmem : (k0, v0) ∈ d) (hne : ∀ kv ∈ e, kv.1 ≠ k0) :
    (k0, v0) ∈ dictUpdate d e := by
  induction e generalizing d with
  | nil => exact hmem
  | cons kv e ih =>
      rw [dictUpdate_cons]
      refine ih _ (mem_dictInsert_of_ne _ _ _ _ _ hmem ?_) ?_
      · exact fun h => (hne kv (List.mem_cons_self kv e)) h.symm
      · exact fun kv2 h2 => hne kv2 (List.mem_cons_of_mem _ h2)

lemma mem_dictUpdate_elim (e d : List (String × String)) (kv : String × String)
    (hmem : kv ∈ dictUpdate d e) : kv ∈ d ∨ kv ∈ e := by
  induction e generalizing d with
  | nil => exact Or.inl hmem
  | cons kv1 e ih =>
      rw [dictUpdate_cons] at hmem
      rcases ih _ hmem with h | h
      · rcases mem_dictInsert_elim _ _ _ _ h with h2 | h2
        · exact Or.inl h2
        · exact Or.inr (by simp [h2])
      · exact Or.inr (List.mem_cons_of_mem _ h)

lemma dkeys_dictUpdate_nodup (e d : List (String × String))
    (hnd : (dkeys d).Nodup) : (dkeys (dictUpdate d e)).Nodup := by
  induction e generalizing d with
  | nil => exact hnd
  | cons kv e ih =>
      rw [dictUpdate_cons]
      exact ih _ (dkeys_dictInsert_nodup _ _ _ hnd)

lemma dictUpdate_append (e d : List (String × String))
    (hdisj : ∀ kv ∈ e, hasKey d kv.1 = false) (hnd : (dkeys e).Nodup) :
    dictUpdate d e = d ++ e := by
  induction e generalizing d with
  | nil => simp [dictUpdate_nil]
  | cons kv e ih =>
      simp only [dkeys, List.map, List.nodup_cons] at hnd
      rw [dictUpdate_cons]
      have hins : dictInsert d kv.1 kv.2 = d ++ [(kv.1, kv.2)] := by
        unfold dictInsert
        rw [if_neg (by simp [hdisj kv (List.mem_cons_self kv e)])]
      rw [hins]
      rw [ih (d ++ [(kv.1, kv.2)]) ?_ (by simpa [dkeys] using hnd.2)]
      · simp
      · intro kv2 h2
        rw [hasKey_append]
        have h3 : hasKey d kv2.1 = false := hdisj kv2 (List.mem_cons_of_mem _ h2)
        have h4 : hasKey [(kv.1, kv.2)] kv2.1 = false := by
          simp only [hasKey]
          rw [if_neg ?_]
          intro hh
          exact hnd.1 (hh ▸ List.mem_map_of_mem Prod.fst h2)
        rw [h3, h4]
        rfl
lemma checkLoop_isOk (content : String) (ps : List String)
    (hc : ∀ p ∈ ps, (compile p).isSome) (acc : List (String × String)) :
    ∃ res, checkLoop content ps acc = .ok res := by
  induction ps generalizing acc with
  | nil => exact ⟨acc, rfl⟩
  | cons p ps ih =>
      rcases Option.isSome_iff_exists.mp (hc p (List.mem_cons_self p ps)) with ⟨r, hr⟩
      simp only [checkLoop, hr]
      exact ih (fun q hq => hc q (List.mem_cons_of_mem _ hq)) _

lemma checkLoop_lookup_not_mem (content : String) (ps : List String)
    (acc res : List (String × String)) (p : String)
    (hok : checkLoop content ps acc = .ok res) (hp : p ∉ ps) :
    dlookup res p = dlookup acc p := by
  induction ps generalizing acc with
  | nil =>
      simp only [checkLoop, Except.ok.injEq] at hok
      rw [hok]
  | cons q ps ih =>
      simp only [List.mem_cons] at hp
      push_neg at hp
      simp only [checkLoop] at hok
      cases hq : compile q with
      | none => rw [hq] at hok; cases hok
      | some r =>
          rw [hq] at hok
          rw [ih _ hok hp.2, dlookup_dictInsert_ne _ _ _ _ hp.1]

lemma checkLoop_lookup (content : String) (ps : List String)
    (acc res : List (String × String)) (p : String)
    (hok : checkLoop content ps acc = .ok res) (hp : p ∈ ps) :
    ∃ r, compile p = some r ∧
      dlookup res p = some (if searchRE r content.data then "✅" else "❌") := by
  induction ps generalizing acc with
  | nil => cases hp
  | cons q ps ih =>
      simp only [checkLoop] at hok
      cases hq : compile q with
      | none => rw [hq] at hok; cases hok
      | some r =>
          rw [hq] at hok
          rcases List.mem_cons.mp hp with h | h
          · subst h
            by_cases h2 : p ∈ ps
            · exact ih _ hok h2
            · refine ⟨r, hq, ?_⟩
              rw [checkLoop_lookup_not_mem _ _ _ _ _ hok h2, dlookup_dictInsert_self]
          · exact ih _ hok h

lemma checkLoop_values (content : String) (ps : List String)
    (acc res : List (String × String))
    (hok : checkLoop content ps acc = .ok res)
    (hacc : ∀ kv ∈ acc, kv.2 = "✅" ∨ kv.2 = "❌") :
    ∀ kv ∈ res, kv.2 = "✅" ∨ kv.2 = "❌" := by
  induction ps generalizing acc with
  | nil =>
      simp only [checkLoop, Except.ok.injEq] at hok
      exact hok ▸ hacc
  | cons q ps ih =>
      simp only [checkLoop] at hok
      cases hq : compile q with
      | none => rw [hq] at hok; cases hok
      | some r =>
          rw [hq] at hok
          refine ih _ hok ?_
          intro kv hkv
          rcases mem_dictInsert_elim _ _ _ _ hkv with h | h
          · exact hacc kv h
          · rw [h]
            by_cases hs : searchRE r content.data
            · simp [hs]
            · simp [hs]

lemma checkLoop_keys (content : String) (ps : List String)
    (acc res : List (String × String)) (kv : String × String)
    (hok : checkLoop content ps acc = .ok res) (hkv : kv ∈ res) :
    kv ∈ acc ∨ kv.1 ∈ ps := by
  induction ps generalizing acc with
  | nil =>
      simp only [checkLoop, Except.ok.injEq] at hok
      exact Or.inl (hok ▸ hkv)
  | cons q ps ih =>
      simp only [checkLoop] at hok
      cases hq : compile q with
      | none => rw [hq] at hok; cases hok
      | some r =>
          rw [hq] at hok
          rcases ih _ hok with h | h
          · rcases mem_dictInsert_elim _ _ _ _ h with h2 | h2
            · exact Or.inl h2
            · exact Or.inr (by simp [h2])
          · exact Or.inr (List.mem_cons_of_mem _ h)

lemma checkLoop_nodup (content : String) (ps : List String)
    (acc res : List (String × String))
    (hok : checkLoop content ps acc = .ok res) (hnd : (dkeys acc).Nodup) :
    (dkeys res).Nodup := by
  induction ps generalizing acc with
  | nil =>
      simp only [checkLoop, Except.ok.injEq] at hok
      exact hok ▸ hnd
  | cons q ps ih =>
      simp only [checkLoop] at hok
      cases hq : compile q with
      | none => rw [hq] at hok; cases hok
      | some r =>
          rw [hq] at hok
          exact ih _ hok (dkeys_dictInsert_nodup _ _ _ hnd)

lemma checkLoop_append (content : String) (ps : List String)
    (acc : List (String × String))
    (hc : ∀ p ∈ ps, (compile p).isSome) (hnd : ps.Nodup)
    (hdisj : ∀ p ∈ ps, hasKey acc p = false) :
    checkLoop content ps acc =
      .ok (acc ++ ps.map fun p => (p, pstatus p content)) := by
  induction ps generalizing acc with
  | nil => simp [checkLoop]
  | cons p ps ih =>
      rcases Option.isSome_iff_exists.mp (hc p (List.mem_cons_self p ps)) with ⟨r, hr⟩
      simp only [checkLoop, hr]
      have hins : dictInsert acc p (if searchRE r content.data then "✅" else "❌") =
          acc ++ [(p, pstatus p content)] := by
        unfold dictInsert
        rw [if_neg (by simp [hdisj p (List.mem_cons_self p ps)])]
        unfold pstatus
        rw [hr]
      rw [hins]
      rw [ih (acc ++ [(p, pstatus p content)])
        (fun q hq => hc q (List.mem_cons_of_mem _ hq)) (List.Nodup.of_cons hnd) ?_]
      · rw [List.append_assoc]
        rfl
      · intro q hq
        rw [hasKey_append]
        have h3 : hasKey acc q = false := hdisj q (List.mem_cons_of_mem _ hq)
        have h4 : hasKey [(p, pstatus p content)] q = false := by
          simp only [hasKey]
          rw [if_neg ?_]
          intro hh
          rw [← hh] at hq
          exact (List.nodup_cons.mp hnd).1 hq
        rw [h3, h4]
        rfl

lemma check_missing (fs : FS) (file : String) (ps : List String)
    (hfs : fs file = none) :
    check fs file ps = .ok [(file, "❌ FILE MISSING")] := by
  unfold check
  rw [hfs]

lemma check_present (fs : FS) (file : String) (ps : List String) (content : String)
    (hfs : fs file = some content) :
    check fs file ps = checkLoop content ps [] := by
  unfold check
  rw [hfs]

lemma check_values (fs : FS) (file : String) (ps : List String)
    (res : List (String × String)) (hok : check fs file ps = .ok res) :
    ∀ kv ∈ res, kv.2 = "✅" ∨ kv.2 = "❌" ∨ kv.2 = "❌ FILE MISSING" := by
  unfold check at hok
  cases hfs : fs file with
  | none =>
      rw [hfs] at hok
      simp only [Except.ok.injEq] at hok
      intro kv hkv
      rw [← hok] at hkv
      simp only [List.mem_singleton] at hkv
      rw [hkv]
      exact Or.inr (Or.inr rfl)
  | some content =>
      rw [hfs] at hok
      intro kv hkv
      rcases checkLoop_values content ps [] res hok (by simp) kv hkv with h | h
      · exact Or.inl h
      · exact Or.inr (Or.inl h)

lemma check_keys (fs : FS) (file : String) (ps : List String)
    (res : List (String × String)) (hok : check fs file ps = .ok res) :
    ∀ kv ∈ res, kv.1 = file ∨ kv.1 ∈ ps := by
  unfold check at hok
  cases hfs : fs file with
  | none =>
      rw [hfs] at hok
      simp only [Except.ok.injEq] at hok
      intro kv hkv
      rw [← hok] at hkv
      simp only [List.mem_singleton] at hkv
      rw [hkv]
      exact Or.inl rfl
  | some content =>
      rw [hfs] at hok
      intro kv hkv
      rcases checkLoop_keys content ps [] res kv hok hkv with h | h
      · cases h
      · exact Or.inr h

lemma check_nodup (fs : FS) (file : String) (ps : List String)
    (res : List (String × String)) (hok : check fs file ps = .ok res) :
    (dkeys res).Nodup := by
  unfold check at hok
  cases hfs : fs file with
  | none =>
      rw [hfs] at hok
      simp only [Except.ok.injEq] at hok
      rw [← hok]
      simp [dkeys]
  | some content =>
      rw [hfs] at hok
      exact checkLoop_nodup content ps [] res hok (by simp [dkeys])

lemma runEntries_isOk (fs : FS) (m : List (String × List String))
    (acc : List (String × String))
    (hc : ∀ e ∈ m, ∀ p ∈ e.2, (compile p).isSome) :
    ∃ res, runEntries fs m acc = .ok res := by
  induction m generalizing acc with
  | nil => exact ⟨acc, rfl⟩
  | cons e m ih =>
      obtain ⟨file, ps⟩ := e
      have hok : ∃ d, check fs file ps = .ok d := by
        unfold check
        cases hfs : fs file with
        | none => exact ⟨_, rfl⟩
        | some content =>
            exact checkLoop_isOk content ps
              (fun p hp => hc (file, ps) (List.mem_cons_self _ _) p hp) []
      rcases hok with ⟨d, hd⟩
      simp only [runEntries, hd]
      exact ih _ (fun e2 h2 => hc e2 (List.mem_cons_of_mem _ h2))

lemma runEntries_values (fs : FS) (m : List (String × List String))
    (acc res : List (String × String))
    (hok : runEntries fs m acc = .ok res)
    (hacc : ∀ kv ∈ acc, kv.2 = "✅" ∨ kv.2 = "❌" ∨ kv.2 = "❌ FILE MISSING") :
    ∀ kv ∈ res, kv.2 = "✅" ∨ kv.2 = "❌" ∨ kv.2 = "❌ FILE MISSING" := by
  induction m generalizing acc with
  | nil =>
      simp only [runEntries, Except.ok.injEq] at hok
      exact hok ▸ hacc
  | cons e m ih =>
      obtain ⟨file, ps⟩ := e
      simp only [runEntries] at hok
      cases hd : check fs file ps with
      | error err => rw [hd] at hok; cases hok
      | ok d =>
          rw [hd] at hok
          refine ih _ hok ?_
          intro kv hkv
          rcases mem_dictUpdate_elim _ _ _ hkv with h | h
          · exact hacc kv h
          · exact check_values fs file ps d hd kv h

lemma runEntries_mem (fs : FS) (m : List (String × List String))
    (acc res : List (String × String)) (k0 v0 : String)
    (hok : runEntries fs m acc = .ok res) (hacc : (k0, v0) ∈ acc)
    (hne : ∀ e ∈ m, e.1 ≠ k0 ∧ k0 ∉ e.2) :
    (k0, v0) ∈ res := by
  induction m generalizing acc with
  | nil =>
      simp only [runEntries, Except.ok.injEq] at hok
      exact hok ▸ hacc
  | cons e m ih =>
      obtain ⟨file, ps⟩ := e
      simp only [runEntries] at hok
      cases hd : check fs file ps with
      | error err => rw [hd] at hok; cases hok
      | ok d =>
          rw [hd] at hok
          refine ih _ hok ?_ (fun e2 h2 => hne e2 (List.mem_cons_of_mem _ h2))
          refine mem_dictUpdate_of_ne _ _ _ _ hacc ?_
          intro kv hkv
          rcases check_keys fs file ps d hd kv hkv with h | h
          · rw [h]
            exact (hne (file, ps) (List.mem_cons_self _ _)).1
          · intro hh
            exact (hne (file, ps) (List.mem_cons_self _ _)).2 (hh ▸ h)

lemma runEntries_nodup (fs : FS) (m : List (String × List String))
    (acc res : List (String × String))
    (hok : runEntries fs m acc = .ok res) (hnd : (dkeys acc).Nodup) :
    (dkeys res).Nodup := by
  induction m generalizing acc with
  | nil =>
      simp only [runEntries, Except.ok.injEq] at hok
      exact hok ▸ hnd
  | cons e m ih =>
      obtain ⟨file, ps⟩ := e
      simp only [runEntries] at hok
      cases hd : check fs file ps with
      | error err => rw [hd] at hok; cases hok
      | ok d =>
          rw [hd] at hok
          exact ih _ hok (dkeys_dictUpdate_nodup _ _ hnd)

lemma check_congr (fs1 fs2 : FS) (file : String) (ps : List String)
    (h : fs1 file = fs2 file) : check fs1 file ps = check fs2 file ps := by
  unfold check
  rw [h]

lemma runEntries_congr (fs1 fs2 : FS) (m : List (String × List String))
    (acc : List (String × String))
    (h : ∀ e ∈ m, fs1 e.1 = fs2 e.1) :
    runEntries fs1 m acc = runEntries fs2 m acc := by
  induction m generalizing acc with
  | nil => rfl
  | cons e m ih =>
      obtain ⟨file, ps⟩ := e
      simp only [runEntries]
      rw [check_congr fs1 fs2 file ps (h (file, ps) (List.mem_cons_self _ _))]
      cases check fs2 file ps with
      | error err => rfl
      | ok d => exact ih _ (fun e2 h2 => h e2 (List.mem_cons_of_mem _ h2))

lemma runEntries_step_present (fs : FS) (file : String) (ps : List String)
    (rest : List (String × List String)) (acc : List (String × String))
    (c : String) (hfs : fs file = some c)
    (hc : ∀ p ∈ ps, (compile p).isSome) (hnd : ps.Nodup)
    (hdisj : ∀ p ∈ ps, hasKey acc p = false) :
    runEntries fs ((file, ps) :: rest) acc =
      runEntries fs rest (acc ++ ps.map fun p => (p, pstatus p c)) := by
  simp only [runEntries]
  rw [check_present fs file ps c hfs, checkLoop_append c ps [] hc hnd (by simp [hasKey])]
  rw [List.nil_append]
  show runEntries fs rest (dictUpdate acc (ps.map fun p => (p, pstatus p c))) = _
  rw [dictUpdate_append _ _ ?_ (by rw [dkeys_map_pair]; exact hnd)]
  intro kv hkv
  rcases List.mem_map.mp hkv with ⟨p, hp, hpe⟩
  rw [← hpe]
  exact hdisj p hp

lemma runEntries_step_missing (fs : FS) (file : String) (ps : List String)
    (rest : List (String × List String)) (acc : List (String × String))
    (hfs : fs file = none) :
    runEntries fs ((file, ps) :: rest) acc =
      runEntries fs rest (dictInsert acc file "❌ FILE MISSING") := by
  simp only [runEntries]
  rw [check_missing fs file ps hfs]
  show runEntries fs rest (dictUpdate acc [(file, "❌ FILE MISSING")]) = _
  rfl

lemma manifest_compiles : ∀ e ∈ manifest, ∀ p ∈ e.2, (compile p).isSome := by
  decide

lemma hasKey_eq_false_iff (d : List (String × String)) (k : String) :
    hasKey d k = false ↔ k ∉ dkeys d := by
  rw [← hasKey_iff]
  cases hasKey d k <;> simp

lemma newline_not_mem {r : RE} {s : List Char} (h : Lang r s) :
    r.newlineFree = true → '\n' ∉ s := by
  induction h with
  | eps => intro _; simp
  | lit c =>
      intro hnf
      simp only [RE.newlineFree] at hnf
      intro hmem
      simp only [List.mem_singleton] at hmem
      rw [← hmem] at hnf
      simp at hnf
  | dot c hc =>
      intro _ hmem
      simp only [List.mem_singleton] at hmem
      exact hc hmem.symm
  | altL h1 ih =>
      intro hnf
      simp only [RE.newlineFree, Bool.and_eq_true] at hnf
      exact ih hnf.1
  | altR h2 ih =>
      intro hnf
      simp only [RE.newlineFree, Bool.and_eq_true] at hnf
      exact ih hnf.2
  | seq h1 h2 ih1 ih2 =>
      intro hnf
      simp only [RE.newlineFree, Bool.and_eq_true] at hnf
      intro hmem
      rcases List.mem_append.mp hmem with h | h
      · exact ih1 hnf.1 h
      · exact ih2 hnf.2 h
  | starNil => intro _; simp
  | starCons h1 h2 ih1 ih2 =>
      intro hnf
      intro hmem
      rcases List.mem_append.mp hmem with h | h
      · exact ih1 (by simpa [RE.newlineFree] using hnf) h
      · exact ih2 hnf h

lemma runEntries_lookup_untouched (fs : FS) (m : List (String × List String))
    (acc res : List (String × String)) (k : String)
    (hok : runEntries fs m acc = .ok res)
    (hne : ∀ e ∈ m, e.1 ≠ k ∧ k ∉ e.2) :
    dlookup res k = dlookup acc k := by
  induction m generalizing acc with
  | nil =>
      simp only [runEntries, Except.ok.injEq] at hok
      rw [hok]
  | cons e m ih =>
      obtain ⟨f2, ps2⟩ := e
      simp only [runEntries] at hok
      cases hd : check fs f2 ps2 with
      | error err => rw [hd] at hok; cases hok
      | ok d2 =>
          rw [hd] at hok
          rw [ih _ hok (fun e2 h2 => hne e2 (List.mem_cons_of_mem _ h2))]
          refine dlookup_dictUpdate_not_mem d2 acc k ?_

          intro hk
          simp only [dkeys] at hk
          rcases List.mem_map.mp hk with ⟨kv, hkv, hfst⟩
          rcases check_keys fs f2 ps2 d2 hd kv hkv with h | h
          · rw [h] at hfst
            exact (hne (f2, ps2) (List.mem_cons_self _ _)).1 hfst
          · rw [hfst] at h
            exact (hne (f2, ps2) (List.mem_cons_self _ _)).2 h

lemma check_entryResult (fs : FS) (file : String) (ps : List String)
    (hc : ∀ p ∈ ps, (compile p).isSome) (hnd : ps.Nodup) :
    check fs file ps = .ok (entryResult fs file ps) := by
  unfold check entryResult
  cases hfs : fs file with
  | none => rfl
  | some c =>
      show checkLoop c ps [] = .ok (ps.map fun p => (p, pstatus p c))
      rw [checkLoop_append c ps [] hc hnd (fun p _ => rfl)]
      rw [List.nil_append]

lemma entryResult_keys (fs : FS) (file : String) (ps : List String) (k : String)
    (hk : k ∈ dkeys (entryResult fs file ps)) : k ∈ file :: ps := by
  unfold entryResult at hk
  cases hfs : fs file with
  | none =>
      rw [hfs] at hk
      simp only [dkeys, List.map, List.map_nil, List.mem_singleton] at hk
      rw [hk]
      exact List.mem_cons_self _ _
  | some c =>
      rw [hfs] at hk
      rw [dkeys_map_pair] at hk
      exact List.mem_cons_of_mem _ hk

lemma entryResult_nodup (fs : FS) (file : String) (ps : List String)
    (hnd : (file :: ps).Nodup) : (dkeys (entryResult fs file ps)).Nodup := by
  unfold entryResult
  cases hfs : fs file with
  | none => simp [dkeys]
  | some c =>
      rw [dkeys_map_pair]
      exact List.Nodup.of_cons hnd

lemma runEntries_entryResults (fs : FS) (m : List (String × List String))
    (acc : List (String × String))
    (hc : ∀ e ∈ m, ∀ p ∈ e.2, (compile p).isSome)
    (hnd : ∀ e ∈ m, (e.1 :: e.2).Nodup)
    (hdisj : ∀ e ∈ m, ∀ k ∈ e.1 :: e.2, hasKey acc k = false)
    (hpair : List.Pairwise (fun e1 e2 => ∀ k ∈ e1.1 :: e1.2, k ∉ e2.1 :: e2.2) m) :
    runEntries fs m acc =
      .ok (acc ++ (m.map fun e => entryResult fs e.1 e.2).flatten) := by
  induction m generalizing acc with
  | nil => simp [runEntries]
  | cons e m ih =>
      obtain ⟨f, ps⟩ := e
      rcases List.pairwise_cons.mp hpair with ⟨hhead, htail⟩
      have hch : check fs f ps = .ok (entryResult fs f ps) :=
        check_entryResult fs f ps (hc (f, ps) (List.mem_cons_self _ _))
          (List.Nodup.of_cons (hnd (f, ps) (List.mem_cons_self _ _)))
      simp only [runEntries]
      rw [hch]
      show runEntries fs m (dictUpdate acc (entryResult fs f ps)) = _
      rw [dictUpdate_append (entryResult fs f ps) acc ?hda ?hna]
      case hda =>
        intro kv hkv
        exact hdisj (f, ps) (List.mem_cons_self _ _) kv.1
          (entryResult_keys fs f ps kv.1 (List.mem_map_of_mem Prod.fst hkv))
      case hna => exact entryResult_nodup fs f ps (hnd (f, ps) (List.mem_cons_self _ _))
      rw [ih (acc ++ entryResult fs f ps)
        (fun e2 h2 => hc e2 (List.mem_cons_of_mem _ h2))
        (fun e2 h2 => hnd e2 (List.mem_cons_of_mem _ h2)) ?_ htail]
      · rw [List.append_assoc]
        rfl
      · intro e2 h2 k hk
        rw [hasKey_append]
        rw [hdisj e2 (List.mem_cons_of_mem _ h2) k hk]
        rw [(hasKey_eq_false_iff (entryResult fs f ps) k).mpr ?_]
        · rfl
        · intro hmem
          exact hhead e2 h2 k (entryResult_keys fs f ps k hmem) hk


/-- Claim C1: for every file that exists and every pattern in its
pattern list, `check` maps that pattern (used verbatim as the key) to
the pass glyph if an unanchored regex search finds a match anywhere in
the file's content, and to the fail glyph if no match is found. -/
theorem check_pattern_pass_fail (fs : FS) (file : String) (patterns : List String)
    (content : String) (res : List (String × String)) (p : String)
    (hfs : fs file = some content) (hok : check fs file patterns = .ok res)
    (hp : p ∈ patterns) :
    ∃ r, compile p = some r ∧
      (FindsMatch r content.data → dlookup res p = some "✅") ∧
      (¬ FindsMatch r content.data → dlookup res p = some "❌") := by
  rw [check_present fs file patterns content hfs] at hok
  rcases checkLoop_lookup content patterns [] res p hok hp with ⟨r, hr, hl⟩
  refine ⟨r, hr, ?_, ?_⟩
  · intro hm
    rw [hl, if_pos ((searchRE_iff r content.data).mpr hm)]
  · intro hm
    rw [hl, if_neg (fun hs => hm ((searchRE_iff r content.data).mp hs))]

/-- Witness for C1 at a concrete filesystem: the file "f" has content
"hello"; the pattern "ell" is keyed verbatim and its status follows the
search outcome. -/
theorem check_pattern_pass_fail_witness :
    ∃ r, compile "ell" = some r ∧
      (FindsMatch r "hello".data →
        dlookup [("ell", "✅"), ("zz", "❌")] "ell" = some "✅") ∧
      (¬ FindsMatch r "hello".data →
        dlookup [("ell", "✅"), ("zz", "❌")] "ell" = some "❌") :=
  check_pattern_pass_fail (fun f => if f = "f" then some "hello" else none)
    "f" ["ell", "zz"] "hello" [("ell", "✅"), ("zz", "❌")] "ell"
    rfl (by rfl) (by simp)

/-- Claim C2: for every file path whose resolved path does not exist,
`check` returns a mapping with exactly one key, the original relative
path string, and no per-pattern keys appear for that entry; all
patterns for that file are skipped. -/
theorem check_missing_single_key (fs : FS) (file : String) (patterns : List String)
    (hfs : fs file = none) :
    ∃ res, check fs file patterns = .ok res ∧
      res = [(file, "❌ FILE MISSING")] ∧ dkeys res = [file] ∧
      ∀ p ∈ patterns, p ≠ file → dlookup res p = none := by
  refine ⟨[(file, "❌ FILE MISSING")], check_missing fs file patterns hfs, rfl, rfl, ?_⟩
  intro p _ hne
  simp only [dlookup]
  rw [if_neg (fun h => hne h.symm)]

/-- Witness for C2 at a concrete filesystem in which no file exists:
the result for file "x" keys only "x", and neither declared pattern
appears as a key. -/
theorem check_missing_single_key_witness :
    ∃ res, check (fun _ => none) "x" ["a", "b"] = .ok res ∧
      res = [("x", "❌ FILE MISSING")] ∧ dkeys res = ["x"] ∧
      ∀ p ∈ ["a", "b"], p ≠ "x" → dlookup res p = none :=
  check_missing_single_key (fun _ => none) "x" ["a", "b"] rfl

/-- Claim C4 counterexample: the claim asserts that a pattern of the
form `A.*B` still passes when `A` and `B` occur on different lines; on
the code, with content "a\nb", the pattern "a.*b" records the fail
glyph, not the pass glyph. -/
theorem multiline_span_counterexample :
    check (fun f => if f = "f" then some "a\nb" else none) "f" ["a.*b"] =
      .ok [("a.*b", "❌")] ∧ ("❌" : String) ≠ "✅" :=
  ⟨by rfl, by decide⟩

/-- Claim C4 amended: for every existing file and every pattern whose
compiled form contains no literal newline (as any `A.*B` with
newline-free `A` and `B` is), the search is unanchored but never spans
an embedded newline: the pattern records pass exactly when some
newline-free substring of the content matches it, since neither the
`.` wildcard nor `.*` matches a newline. In particular `a.*b` records
pass on "xx a yy b zz" (match begins mid-content, one line) and fail
on "a\nb" (`a` and `b` only on different lines). -/
theorem search_unanchored_dot_stops_at_newline :
    (∀ (fs : FS) (file : String) (patterns : List String) (content : String)
       (res : List (String × String)) (p : String) (r : RE),
       fs file = some content → check fs file patterns = .ok res →
       p ∈ patterns → compile p = some r → RE.newlineFree r = true →
       (dlookup res p = some "✅" ↔
         ∃ pre mid post, content.data = pre ++ mid ++ post ∧
           Lang r mid ∧ '\n' ∉ mid)) ∧
    check (fun f => if f = "f" then some "xx a yy b zz" else none) "f" ["a.*b"] =
      .ok [("a.*b", "✅")] ∧
    check (fun f => if f = "f" then some "a\nb" else none) "f" ["a.*b"] =
      .ok [("a.*b", "❌")] := by
  refine ⟨?_, by rfl, by rfl⟩
  intro fs file patterns content res p r hfs hok hp hr hnl
  rw [check_present fs file patterns content hfs] at hok
  rcases checkLoop_lookup content patterns [] res p hok hp with ⟨r2, hr2, hl⟩
  rw [hr] at hr2
  injection hr2 with hr2
  subst hr2
  constructor
  · intro hpass
    rw [hl] at hpass
    by_cases hs : searchRE r content.data = true
    · have hfm : ∃ pre mid post, content.data = pre ++ mid ++ post ∧ Lang r mid :=
        (searchRE_iff r content.data).mp hs
      rcases hfm with ⟨pre, mid, post, hsp, hlang⟩
      exact ⟨pre, mid, post, hsp, hlang, newline_not_mem hlang hnl⟩
    · rw [if_neg hs] at hpass
      injection hpass with hpass
      exact absurd hpass (by decide)
  · rintro ⟨pre, mid, post, hsp, hlang, -⟩
    have hs : searchRE r content.data = true :=
      (searchRE_iff r content.data).mpr ⟨pre, mid, post, hsp, hlang⟩
    rw [hl, if_pos hs]

/-- Witness for the amended C4: instantiated at the file "f" with
content "a\nb" and pattern "a.*b"; the recorded status is the fail
glyph, and the theorem ties pass exactly to a newline-free match. -/
theorem search_unanchored_dot_stops_at_newline_witness :
    dlookup [("a.*b", "❌")] "a.*b" = some "✅" ↔
      ∃ pre mid post, "a\nb".data = pre ++ mid ++ post ∧
        Lang (.seq (.seq (.seq .eps (.lit 'a')) (.star .dot)) (.lit 'b')) mid ∧
        '\n' ∉ mid :=
  search_unanchored_dot_stops_at_newline.1
    (fun f => if f = "f" then some "a\nb" else none) "f" ["a.*b"] "a\nb"
    [("a.*b", "❌")] "a.*b"
    (.seq (.seq (.seq .eps (.lit 'a')) (.star .dot)) (.lit 'b'))
    rfl (by rfl) (by simp) (by rfl) (by rfl)

/-- Claim C10: a pattern that is not valid regular-expression syntax
(here the lone "(") makes `check` raise to its caller even though the
target file exists and its content decodes: the pattern string is
passed directly to the regex engine. -/
theorem invalid_pattern_raises :
    check (fun f => if f = "f" then some "abc" else none) "f" ["("] =
      .error (.invalidPattern "(") := by rfl

lemma runEntries_cons_ok (fs : FS) (file : String) (ps : List String)
    (rest : List (String × List String)) (acc d : List (String × String))
    (hd : check fs file ps = .ok d) :
    runEntries fs ((file, ps) :: rest) acc = runEntries fs rest (dictUpdate acc d) := by
  simp only [runEntries]
  rw [hd]

lemma runEntries_cons_error (fs : FS) (file : String) (ps : List String)
    (rest : List (String × List String)) (acc : List (String × String)) (e : ReError)
    (hd : check fs file ps = .error e) :
    runEntries fs ((file, ps) :: rest) acc = .error e := by
  simp only [runEntries]
  rw [hd]

lemma env_missing_mem (fs : FS) (res : List (String × String))
    (henv : fs ".env.example" = none) (hok : results fs = .ok res) :
    (".env.example", "❌ FILE MISSING") ∈ res := by
  unfold results manifest at hok
  cases h1 : check fs "docker-compose.yml"
      ["volumes:.*mcp_config.db", "command:.*dev", "certbot/certbot", "9229"] with
  | error e =>
      rw [runEntries_cons_error fs _ _ _ _ e h1] at hok
      cases hok
  | ok d1 =>
      rw [runEntries_cons_ok fs _ _ _ _ d1 h1] at hok
      cases h2 : check fs "nginx.conf"
          ["listen 443 ssl", "certbot", "proxy_pass http://app:3000"] with
      | error e =>
          rw [runEntries_cons_error fs _ _ _ _ e h2] at hok
          cases hok
      | ok d2 =>
          rw [runEntries_cons_ok fs _ _ _ _ d2 h2] at hok
          rw [runEntries_step_missing fs _ _ _ _ henv] at hok
          exact runEntries_mem fs _ _ res ".env.example" "❌ FILE MISSING" hok
            (mem_dictInsert_self _ _ _) (by decide)

/-- Claim C3 counterexample: with no file present, the report's line
for the environment template is `.env.example: ❌ FILE MISSING`, not
the claimed `.env.example: FILE MISSING`; the missing-file status the
code emits carries the fail glyph in front. -/
theorem missing_marker_counterexample :
    outputLines (fun _ => none) =
      .ok [ "docker-compose.yml: ❌ FILE MISSING",
            "nginx.conf: ❌ FILE MISSING",
            ".env.example: ❌ FILE MISSING",
            "src/lib/mcp/config.ts: ❌ FILE MISSING",
            "src/app/api/mcp/config/route.ts: ❌ FILE MISSING" ] ∧
    ".env.example: FILE MISSING" ∉
      [ "docker-compose.yml: ❌ FILE MISSING",
        "nginx.conf: ❌ FILE MISSING",
        ".env.example: ❌ FILE MISSING",
        "src/lib/mcp/config.ts: ❌ FILE MISSING",
        "src/app/api/mcp/config/route.ts: ❌ FILE MISSING" ] ∧
    (".env.example: ❌ FILE MISSING" : String) ≠ ".env.example: FILE MISSING" :=
  ⟨by rfl, by decide, by decide⟩

/-- Claim C3 amended: every status value in the report is one of
exactly three strings: the pass glyph "✅", the fail glyph "❌", and
the missing-file marker "❌ FILE MISSING" (the fail glyph followed by
" FILE MISSING"); when the environment template does not exist the
printed line for it is exactly `.env.example: ❌ FILE MISSING`. -/
theorem report_statuses_amended :
    (∀ (fs : FS) (res : List (String × String)), results fs = .ok res →
      ∀ kv ∈ res, kv.2 = "✅" ∨ kv.2 = "❌" ∨ kv.2 = "❌ FILE MISSING") ∧
    (∀ (fs : FS) (lines : List String), fs ".env.example" = none →
      outputLines fs = .ok lines → ".env.example: ❌ FILE MISSING" ∈ lines) := by
  constructor
  · intro fs res hok kv hkv
    exact runEntries_values fs manifest [] res hok (by simp) kv hkv
  · intro fs lines henv hout
    unfold outputLines at hout
    cases hres : results fs with
    | error e => rw [hres] at hout; cases hout
    | ok res =>
        rw [hres] at hout
        simp only [Except.map] at hout
        injection hout with hout
        rw [← hout]
        exact List.mem_map_of_mem _ (env_missing_mem fs res henv hres)

/-- Witness for the amended C3 at the all-missing filesystem. -/
theorem report_statuses_amended_witness :
    ".env.example: ❌ FILE MISSING" ∈
      [ "docker-compose.yml: ❌ FILE MISSING",
        "nginx.conf: ❌ FILE MISSING",
        ".env.example: ❌ FILE MISSING",
        "src/lib/mcp/config.ts: ❌ FILE MISSING",
        "src/app/api/mcp/config/route.ts: ❌ FILE MISSING" ] :=
  report_statuses_amended.2 (fun _ => none)
    [ "docker-compose.yml: ❌ FILE MISSING",
      "nginx.conf: ❌ FILE MISSING",
      ".env.example: ❌ FILE MISSING",
      "src/lib/mcp/config.ts: ❌ FILE MISSING",
      "src/app/api/mcp/config/route.ts: ❌ FILE MISSING" ] rfl (by rfl)

/-- Claim C5: merging runs with key-insertion-or-overwrite semantics:
the final merged report never repeats a key; merging a later entry's
result overwrites the accumulated value of every key that result
declares; and in the full batch, when an entry is the last one that
can produce a key (no subsequent entry uses it as file identifier or
declares it as a pattern), the FINAL report carries exactly that
entry's status for the key (last-write-wins). -/
theorem merge_last_write_wins :
    (∀ (fs : FS) (m : List (String × List String)) (res : List (String × String)),
      runEntries fs m [] = .ok res → (dkeys res).Nodup) ∧
    (∀ (fs : FS) (d e : List (String × String)) (file : String) (ps : List String)
      (k : String), check fs file ps = .ok e → k ∈ dkeys e →
      ∃ v, dlookup e k = some v ∧ dlookup (dictUpdate d e) k = some v) ∧
    (∀ (fs : FS) (m : List (String × List String))
      (acc res e : List (String × String)) (file : String) (ps : List String)
      (k v : String),
      runEntries fs ((file, ps) :: m) acc = .ok res →
      check fs file ps = .ok e → k ∈ dkeys e → dlookup e k = some v →
      (∀ e2 ∈ m, e2.1 ≠ k ∧ k ∉ e2.2) →
      dlookup res k = some v) := by
  refine ⟨?_, ?_, ?_⟩
  · intro fs m res hok
    exact runEntries_nodup fs m [] res hok (by simp [dkeys])
  · intro fs d e file ps k hok hk
    rcases dlookup_isSome_of_mem_keys e k hk with ⟨v, hv⟩
    refine ⟨v, hv, ?_⟩
    rw [dlookup_dictUpdate_mem e d k (check_nodup fs file ps e hok) hk, hv]
  · intro fs m acc res e file ps k v hok hcheck hk hv hne
    rw [runEntries_cons_ok fs file ps m acc e hcheck] at hok
    rw [runEntries_lookup_untouched fs m (dictUpdate acc e) res k hok hne]
    rw [dlookup_dictUpdate_mem e acc k (check_nodup fs file ps e hcheck) hk]
    exact hv

/-- Witness for C5: the key "x" is already in the accumulated report
with the fail glyph; the entry for file "f" re-declares pattern "x"
(which passes) and a later entry for file "g" does not mention "x":
the final report holds the later-processed "x" status, the pass
glyph. -/
theorem merge_last_write_wins_witness :
    (dkeys [("x", "✅")]).Nodup ∧
    (∃ v, dlookup [("x", "✅")] "x" = some v ∧
      dlookup (dictUpdate [("x", "❌")] [("x", "✅")]) "x" = some v) ∧
    dlookup [("x", "✅"), ("y", "❌")] "x" = some "✅" :=
  ⟨merge_last_write_wins.1 (fun f => if f = "f" then some "x" else none)
      [("f", ["x"])] [("x", "✅")] (by rfl),
   merge_last_write_wins.2.1 (fun f => if f = "f" then some "x" else none)
      [("x", "❌")] [("x", "✅")] "f" ["x"] "x" (by rfl) (by decide),
   merge_last_write_wins.2.2
      (fun f => if f = "f" then some "x" else if f = "g" then some "" else none)
      [("g", ["y"])] [("x", "❌")] [("x", "✅"), ("y", "❌")] [("x", "✅")]
      "f" ["x"] "x" "✅" (by rfl) (by rfl) (by decide) (by rfl) (by decide)⟩

/-- Claim C6: `check` raises nothing when the file is missing or a
pattern is merely not found: a missing file yields the single
missing-file entry, and (for patterns the regex engine accepts) a
not-found pattern yields the fail glyph as data in the result mapping,
without interrupting anything. -/
theorem check_no_exception (fs : FS) (file : String) (patterns : List String) :
    (fs file = none → check fs file patterns = .ok [(file, "❌ FILE MISSING")]) ∧
    (∀ content, fs file = some content → (∀ p ∈ patterns, (compile p).isSome) →
      ∃ res, check fs file patterns = .ok res ∧
        ∀ p ∈ patterns, ∃ v, dlookup res p = some v ∧ (v = "✅" ∨ v = "❌")) := by
  constructor
  · exact check_missing fs file patterns
  · intro content hfs hc
    rcases checkLoop_isOk content patterns hc [] with ⟨res, hres⟩
    refine ⟨res, by rw [check_present fs file patterns content hfs]; exact hres, ?_⟩
    intro p hp
    rcases checkLoop_lookup content patterns [] res p hres hp with ⟨r, _, hl⟩
    by_cases hs : searchRE r content.data = true
    · exact ⟨"✅", by rw [hl, if_pos hs], Or.inl rfl⟩
    · exact ⟨"❌", by rw [hl, if_neg hs], Or.inr rfl⟩

/-- Witness for C6: a missing file "g" and an existing file "f" whose
patterns "b" (found) and "zz" (not found) both come back as data. -/
theorem check_no_exception_witness :
    check (fun _ => none) "g" ["p"] = .ok [("g", "❌ FILE MISSING")] ∧
    ∃ res, check (fun f => if f = "f" then some "abc" else none) "f" ["b", "zz"] =
        .ok res ∧
      ∀ p ∈ ["b", "zz"], ∃ v, dlookup res p = some v ∧ (v = "✅" ∨ v = "❌") :=
  ⟨(check_no_exception (fun _ => none) "g" ["p"]).1 rfl,
   (check_no_exception (fun f => if f = "f" then some "abc" else none) "f"
      ["b", "zz"]).2 "abc" rfl (by decide)⟩

/-- Claim C7: for every filesystem state (contents are text in this
model), the whole program runs to completion without raising and exits
with status 0, however many checks fail. -/
theorem program_always_exits_zero (fs : FS) :
    (outputLines fs).isOk = true ∧ exitCode fs = 0 := by
  rcases runEntries_isOk fs manifest [] manifest_compiles with ⟨res, hres⟩
  have h2 : outputLines fs = .ok (res.map fun kv => kv.1 ++ ": " ++ kv.2) := by
    unfold outputLines results
    rw [hres]
    rfl
  refine ⟨by rw [h2]; rfl, ?_⟩
  unfold exitCode
  rw [h2]

/-- Witness for C7 at the all-missing filesystem. -/
theorem program_always_exits_zero_witness :
    (outputLines (fun _ => none)).isOk = true ∧ exitCode (fun _ => none) = 0 :=
  program_always_exits_zero (fun _ => none)

/-- Claim C8: for every filesystem, the output is exactly one line per
key of the final merged mapping, formatted `key: status`, in insertion
order: the five manifest entries in their fixed declared order, each
existing file's entry contributing its patterns in declared order and
each missing file's entry contributing its single missing-file line in
the entry's position. -/
theorem report_lines_in_manifest_order (fs : FS) :
    outputLines fs = .ok
      ((entryResult fs "docker-compose.yml"
          ["volumes:.*mcp_config.db", "command:.*dev", "certbot/certbot", "9229"] ++
        entryResult fs "nginx.conf"
          ["listen 443 ssl", "certbot", "proxy_pass http://app:3000"] ++
        entryResult fs ".env.example"
          ["NODE_ENV", "PORT", "MCP_DB_PATH", "DEBUG_MODE"] ++
        entryResult fs "src/lib/mcp/config.ts"
          ["sqlite3", "MCP_COOKIE_KEY"] ++
        entryResult fs "src/app/api/mcp/config/route.ts"
          ["session_id", "INSERT OR REPLACE"]).map
        fun kv => kv.1 ++ ": " ++ kv.2) := by
  unfold outputLines results
  rw [runEntries_entryResults fs manifest [] manifest_compiles (by decide)
      (fun e he k hk => rfl) (by decide)]
  simp [manifest, Except.map, List.append_assoc]

/-- Witness for C8 at a concrete filesystem where the environment
template is missing and the other four files exist: twelve lines, in
manifest order, with the single missing-file line in the third entry's
position. -/
theorem report_lines_in_manifest_order_witness :
    outputLines
      (fun f =>
        if f = "docker-compose.yml" then
          some "volumes: [mcp_config.db] command: dev certbot/certbot 9229"
        else if f = "nginx.conf" then
          some "listen 443 ssl; certbot; proxy_pass http://app:3000;"
        else if f = "src/lib/mcp/config.ts" then some "sqlite3"
        else if f = "src/app/api/mcp/config/route.ts" then some "session_id"
        else none) = .ok
      [ "volumes:.*mcp_config.db: ✅",
        "command:.*dev: ✅",
        "certbot/certbot: ✅",
        "9229: ✅",
        "listen 443 ssl: ✅",
        "certbot: ✅",
        "proxy_pass http://app:3000: ✅",
        ".env.example: ❌ FILE MISSING",
        "sqlite3: ✅",
        "MCP_COOKIE_KEY: ❌",
        "session_id: ✅",
        "INSERT OR REPLACE: ❌" ] := by
  rw [report_lines_in_manifest_order
      (fun f =>
        if f = "docker-compose.yml" then
          some "volumes: [mcp_config.db] command: dev certbot/certbot 9229"
        else if f = "nginx.conf" then
          some "listen 443 ssl; certbot; proxy_pass http://app:3000;"
        else if f = "src/lib/mcp/config.ts" then some "sqlite3"
        else if f = "src/app/api/mcp/config/route.ts" then some "session_id"
        else none)]
  rfl

/-- Claim C9: the program is deterministic: its output is a function of
the contents of the five manifest files alone, so two runs over
unchanged inputs print identical lines in identical order. -/
theorem output_deterministic (fs1 fs2 : FS)
    (h1 : fs1 "docker-compose.yml" = fs2 "docker-compose.yml")
    (h2 : fs1 "nginx.conf" = fs2 "nginx.conf")
    (h3 : fs1 ".env.example" = fs2 ".env.example")
    (h4 : fs1 "src/lib/mcp/config.ts" = fs2 "src/lib/mcp/config.ts")
    (h5 : fs1 "src/app/api/mcp/config/route.ts" = fs2 "src/app/api/mcp/config/route.ts") :
    outputLines fs1 = outputLines fs2 := by
  unfold outputLines results
  rw [runEntries_congr fs1 fs2 manifest [] ?_]
  intro e he
  fin_cases he <;> assumption

/-- Witness for C9: two filesystems that agree on the five manifest
files (but differ elsewhere) produce identical output. -/
theorem output_deterministic_witness :
    outputLines (fun _ => none) =
      outputLines (fun f => if f = "zzz" then some "x" else none) :=
  output_deterministic (fun _ => none) (fun f => if f = "zzz" then some "x" else none)
    rfl rfl rfl rfl rfl
